import Mathlib

/-!
Shallow embedding of the core of `copy-csh.js` (MadCap Flare "Copy CSHID"
helper, version 2.0.0) and proofs about it.

Strings are modelled by Lean `String` (a list of characters); the handful of
string primitives the script uses (`split`, `replace` with the concrete
regexes of the source, `startsWith`, `slice`, `trim`, `toLowerCase`) are
re-implemented below as executable character-list functions so that every
definition evaluates inside the kernel.  JavaScript `.length` counts UTF-16
code units while Lean counts characters; the two agree on all inputs used
here.  Network, DOM and clipboard effects are modelled by explicit oracle
parameters (probe outcomes, fetch outcome, XML parse function), and the
`try`/`catch` of `getCshId` is modelled by an `Except` computation plus a
handler, so "throwing" is visible in the model.
-/

namespace CopyCsh

/-- Characters kept by the `replace(/[^a-z0-9]/g,"")` sanitiser of the
extension (lowercase letters and digits). -/
def extSanChar (c : Char) : Bool :=
  (('a' ≤ c) && (c ≤ 'z')) || (('0' ≤ c) && (c ≤ '9'))

/-- Characters accepted by the `/\.[a-z0-9]+$/i` extension regex
(letters of either case and digits). -/
def extChar (c : Char) : Bool :=
  (('a' ≤ c.toLower) && (c.toLower ≤ 'z')) || (('0' ≤ c) && (c ≤ '9'))

/-- Whitespace stripped by JavaScript `String.prototype.trim` (the ASCII
part, which is all the script ever meets). -/
def wsChar (c : Char) : Bool :=
  (c == ' ') || (c == '\t') || (c == '\n') || (c == '\r') ||
  (c == '\x0b') || (c == '\x0c')

/-- Build a `String` from a character list. -/
def ofChars (l : List Char) : String := ⟨l⟩

/-- JavaScript `s.trim()`. -/
def jsTrim (s : String) : String :=
  ofChars (((s.data.dropWhile wsChar).reverse.dropWhile wsChar).reverse)

/-- JavaScript `s.toLowerCase()` (ASCII case folding, as used here). -/
def jsLower (s : String) : String := ofChars (s.data.map Char.toLower)

/-- JavaScript `s.startsWith(pre)`. -/
def strStartsWith (s pre : String) : Bool := pre.data.isPrefixOf s.data

/-- JavaScript `s.slice(n)` for a non-negative `n`. -/
def strDrop (s : String) (n : Nat) : String := ofChars (s.data.drop n)

/-- JavaScript `s.replace(/^\//,"")`: remove a single leading slash. -/
def stripOneLeadingSlash (s : String) : String :=
  match s.data with
  | '/' :: rest => ofChars rest
  | _ => s

/-- JavaScript `s.replace(/\/+$/,"")`: remove all trailing slashes. -/
def stripTrailingSlashes (s : String) : String :=
  ofChars ((s.data.reverse.dropWhile (· == '/')).reverse)

/-- Does the string end in a slash (used to state the basePath invariant)? -/
def endsWithSlash (s : String) : Bool := s.data.getLast? == some '/'

/-- Does the string contain two adjacent slashes? -/
def hasDoubleSlash : List Char → Bool
  | [] => false
  | [_] => false
  | a :: b :: rest => ((a == '/') && (b == '/')) || hasDoubleSlash (b :: rest)

/-- JavaScript `s.split(sep)` (single-character separator), on char lists. -/
def splitAux (sep : Char) (cur : List Char) : List Char → List (List Char)
  | [] => [cur.reverse]
  | c :: rest =>
    if c == sep then cur.reverse :: splitAux sep [] rest
    else splitAux sep (c :: cur) rest

/-- JavaScript `s.split(sep)` for a one-character separator. -/
def splitString (sep : Char) (s : String) : List String :=
  (splitAux sep [] s.data).map ofChars

/-- `splitPath(pathname)`: `pathname.split("/").filter(Boolean)` -- split on
slashes and drop the empty segments. -/
def splitPath (pathname : String) : List String :=
  (splitString '/' pathname).filter (fun s => s != "")

/-- Segment concatenation used by `joinPath`. -/
def joinSegs : List String → List Char
  | [] => []
  | [a] => a.data
  | a :: rest => a.data ++ '/' :: joinSegs rest

/-- `joinPath(parts)`: `"/" + parts.join("/")`. -/
def joinPath (parts : List String) : String := ofChars ('/' :: joinSegs parts)

/-- `hasFileExt(seg)`: the `/\.[a-z0-9]+$/i` test -- the segment ends in a
non-empty run of alphanumerics immediately preceded by a dot. -/
def hasFileExt (seg : String) : Bool :=
  let r := seg.data.reverse
  let run := r.takeWhile extChar
  (!(run.isEmpty)) && ((r.drop run.length).head? == some '.')

/-- `stripUrlVariables(url)`: `url.split("?")[0].split("#")[0]` -- everything
from the first `?` or `#` on is removed. -/
def stripUrlVariables (url : String) : String :=
  ofChars ((url.data.takeWhile (· != '?')).takeWhile (· != '#'))

/-- `joinBase(basePath, rest)`: root base becomes empty, other bases lose
their trailing slashes; the tail gets exactly one leading slash. -/
def joinBase (basePath rest : String) : String :=
  let base := if basePath = "/" then "" else stripTrailingSlashes basePath
  let tail := if strStartsWith rest "/" then rest else "/" ++ rest
  base ++ tail

end CopyCsh

namespace CopyCsh

/-! ## Manifest index (`getCshId`, lines 237-314 of `copy-csh.js`) -/

/-- A `<Map>` element of `Alias.xml` as the script reads it:
`getAttribute("Link")` coerced through `|| ""` and `getAttribute("ResolvedId")`
kept as possibly-null. -/
structure MapRec where
  link : String
  resolvedId : Option String
deriving DecidableEq, Repr

/-- An entry registered in the alias index: `{ link, cshId, ext }`. -/
structure AliasEntry where
  link : String
  cshId : Option String
  ext : String
deriving DecidableEq, Repr

/-- The three key spaces of the index.  JavaScript plain objects are modelled
as association lists with the most recent assignment in front, so
`List.lookup` sees the latest write first, exactly like property overwrite. -/
structure AliasIndex where
  full : List (String × AliasEntry)
  noContent : List (String × AliasEntry)
  file : List (String × AliasEntry)
deriving DecidableEq, Repr

/-- `aliasCache` contents: the index plus its build timestamp `ts`. -/
structure AliasCache where
  index : AliasIndex
  ts : Nat
deriving DecidableEq, Repr

/-- `TEN_MIN = 10 * 60 * 1000`. -/
def TEN_MIN : Nat := 10 * 60 * 1000

/-- Normalisation applied to the `Link` attribute and to the lookup target:
`.trim().toLowerCase()`. -/
def normLink (s : String) : String := jsLower (jsTrim s)

/-- The content-stripped key: drop a leading `"content/"`
(`contentPrefixLen = 8`) when present. -/
def noContentKey (link : String) : String :=
  if strStartsWith link "content/" then strDrop link 8 else link

/-- The filename key: `link.split("/").pop()`. -/
def fileKey (link : String) : String := (splitString '/' link).getLastD ""

/-- JavaScript `a || b` for strings: empty is falsy. -/
def jsOrStr (a b : String) : String := if a = "" then b else a

/-- Extension derivation: `(link.split(".").pop() || "htm").toLowerCase()
.replace(/[^a-z0-9]/g,"")`, then the `htm`/`html`/`php` allow-list with
default `"htm"`. -/
def extOf (link : String) : String :=
  let rawExt := ofChars ((jsLower (jsOrStr ((splitString '.' link).getLastD "") "htm")).data.filter extSanChar)
  if rawExt = "htm" ∨ rawExt = "html" ∨ rawExt = "php" then rawExt else "htm"

/-- The entry a record registers, or `none` when the normalised link is
empty (`if (!link) continue`). -/
def validEntry (m : MapRec) : Option AliasEntry :=
  let link := normLink m.link
  if link = "" then none else some ⟨link, m.resolvedId, extOf link⟩

/-- One iteration of the `for (let map of maps)` loop. -/
def indexStep (idx : AliasIndex) (m : MapRec) : AliasIndex :=
  match validEntry m with
  | none => idx
  | some e =>
    ⟨(e.link, e) :: idx.full, (noContentKey e.link, e) :: idx.noContent,
      (fileKey e.link, e) :: idx.file⟩

/-- The empty index `{ full: {}, noContent: {}, file: {} }`. -/
def emptyIndex : AliasIndex := ⟨[], [], []⟩

/-- Index building: the registration loop over all `<Map>` records. -/
def buildAliasIndex (maps : List MapRec) : AliasIndex :=
  maps.foldl indexStep emptyIndex

/-- The three-probe lookup
`index.full[rel] || index.noContent[relNoContent] || index.file[relFile]`
after normalising the target. -/
def lookupIndex (idx : AliasIndex) (targetRelative : String) : Option AliasEntry :=
  let rel := normLink targetRelative
  let relNoContent := noContentKey rel
  let relFile := fileKey rel
  match idx.full.lookup rel with
  | some e => some e
  | none =>
    match idx.noContent.lookup relNoContent with
    | some e => some e
    | none => idx.file.lookup relFile

/-! ## Auto-discovery candidates (`candidateBases`, lines 132-158) -/

/-- Insertion into the `Set` kept by `candidateBases`: a JavaScript `Set`
preserves first-insertion order and ignores re-insertions. -/
def setAdd (l : List String) (x : String) : List String :=
  if x ∈ l then l else l ++ [x]

/-- `parts.lastIndexOf(s)` (case-sensitive), as an optional index. -/
def lastIdxOf (l : List String) (s : String) : Option Nat :=
  match l with
  | [] => none
  | a :: rest =>
    match lastIdxOf rest s with
    | some k => some (k + 1)
    | none => if a = s then some 0 else none

/-- The version-like segment following a `/Docs/` at the head of `cs`
(`[^/]+` of the regex). -/
def docsSeg (cs : List Char) : List Char := (cs.drop 6).takeWhile (· != '/')

/-- What remains of `cs` after `/Docs/<seg>`. -/
def docsRest2 (cs : List Char) : List Char := (cs.drop 6).drop (docsSeg cs).length

/-- Try the regex `(\/Docs\/[^/]+\/TopNav)(?=\/)/i` at the start of `cs`:
a case-insensitive `/Docs/`, a non-empty slash-free segment, a
case-insensitive `/TopNav`, and a lookahead slash; the capture keeps the
original casing. -/
def matchDocsAt (cs : List Char) : Option (List Char) :=
  if (cs.take 6).map Char.toLower = "/docs/".data then
    if (docsSeg cs).isEmpty then none
    else
      if ((docsRest2 cs).take 7).map Char.toLower = "/topnav".data then
        match (docsRest2 cs).drop 7 with
        | '/' :: _ => some (cs.take (6 + (docsSeg cs).length + 7))
        | _ => none
      else none
  else none

/-- Scan for the first (leftmost) match of the `/Docs/<ver>/TopNav` regex. -/
def scanDocs : List Char → Option (List Char)
  | [] => none
  | c :: rest =>
    match matchDocsAt (c :: rest) with
    | some m => some m
    | none => scanDocs rest

/-- `pathname.match(/(\/Docs\/[^/]+\/TopNav)(?=\/)/i)`, first capture. -/
def docsTopNavMatch (pathname : String) : Option String :=
  (scanDocs pathname.data).map ofChars

/-- The content-root-prefix candidate: everything before the last `Content`
segment, when one exists. -/
def contentRootCandidate (pathname : String) : Option String :=
  (lastIdxOf (splitPath pathname) "Content").map
    (fun k => joinPath ((splitPath pathname).take k))

/-- The loop counters of the ancestor walk: `i` from `parts.length` down
while `i > 0 && parts.length - i <= 6` (`MAX_UP = 6`). -/
def ancestorIs (n : Nat) : List Nat := (List.range (min n 7)).map (fun k => n - k)

/-- One iteration of the ancestor walk: treat the final segment as a
filename (excluded from the candidate) only when it has a file extension. -/
def ancestorStep (parts : List String) (acc : List String) (i : Nat) : List String :=
  let seg := parts.getD (i - 1) ""
  if hasFileExt seg then
    if i - 1 > 0 then setAdd acc (joinPath (parts.take (i - 1))) else acc
  else setAdd acc (joinPath (parts.take i))

/-- Candidate list after the `/Docs/<ver>/TopNav` regex step. -/
def candidatesAfterDocs (pathname : String) : List String :=
  match docsTopNavMatch pathname with
  | some m => setAdd [] m
  | none => []

/-- Candidate list after also adding everything before the last `Content`
segment (when one exists). -/
def candidatesAfterContent (pathname : String) : List String :=
  match lastIdxOf (splitPath pathname) "Content" with
  | some k => setAdd (candidatesAfterDocs pathname) (joinPath ((splitPath pathname).take k))
  | none => candidatesAfterDocs pathname

/-- Candidate list after the ancestor walk. -/
def candidatesAfterAncestors (pathname : String) : List String :=
  (ancestorIs (splitPath pathname).length).foldl (ancestorStep (splitPath pathname))
    (candidatesAfterContent pathname)

/-- `candidateBases(pathname)`: the ordered, de-duplicated candidate base
list -- the `/Docs/<ver>/TopNav` match, the prefix before the last
`Content` segment, up to seven ancestors, and finally the site root. -/
def candidateBases (pathname : String) : List String :=
  setAdd (candidatesAfterAncestors pathname) "/"

/-- The value `getCshId` returns on a hit:
`{ cshId: hit.cshId, correctExtension: hit.ext }`. -/
structure CshHit where
  cshId : Option String
  correctExtension : String
deriving DecidableEq, Repr

/-- Convert an index entry to the returned hit. -/
def toHit (e : AliasEntry) : CshHit := ⟨e.cshId, e.ext⟩

/-- The cache-hit probe at the top of `getCshId`: only when a cache exists
and is at most `TEN_MIN` old is the cached index consulted. -/
def cacheProbe (cache : Option AliasCache) (now : Nat) (targetRelative : String) :
    Option AliasEntry :=
  match cache with
  | none => none
  | some c => if now - c.ts ≤ TEN_MIN then lookupIndex c.index targetRelative else none

/-- Outcome of the raced `fetch` of `Alias.xml`: a rejected promise or abort
timeout (`failure`), or a response with its `ok` flag and body text. -/
inductive FetchOutcome where
  | failure
  | success (ok : Bool) (body : String)
deriving DecidableEq, Repr

/-- The `try` block of `getCshId` after the cache miss, with `throw` modelled
by `Except.error`.  The XML parser is an oracle `parse` mapping the body to
its `<Map>` records (a malformed document simply yields no records). -/
def getCshIdFetch (fetch : FetchOutcome) (parse : String → List MapRec)
    (targetRelative : String) (now : Nat) :
    Except String (Option CshHit × AliasCache) :=
  match fetch with
  | .failure => .error "fetch rejected or timed out"
  | .success ok body =>
    if !ok then .error "Failed to fetch XML"
    else if body.length > 2000000 then .error "Alias.xml too large"
    else
      let idx := buildAliasIndex (parse body)
      let newCache : AliasCache := ⟨idx, now⟩
      match lookupIndex idx targetRelative with
      | some e => .ok (some (toHit e), newCache)
      | none => .ok (none, newCache)

/-- `getCshId(aliasPath, targetRelative)`: the cache-hit fast path, then the
fetch/parse/lookup body with its `catch` that converts every internal error
into a `null` result ("logged, not thrown").  Returns the result together
with the cache left behind.  `aliasPath` only feeds the fetched URL, which
the fetch oracle abstracts. -/
def getCshId (cache : Option AliasCache) (now : Nat) (fetch : FetchOutcome)
    (parse : String → List MapRec) (aliasPath targetRelative : String) :
    Option CshHit × Option AliasCache :=
  match cacheProbe cache now targetRelative with
  | some hit => (some (toHit hit), cache)
  | none =>
    match getCshIdFetch fetch parse targetRelative now with
    | .ok (r, c) => (r, some c)
    | .error _ => (none, cache)

/-! ## Context resolver (lines 109-231) and orchestrator (lines 466-515) -/

/-- The resolved addressing triple returned by the discovery functions. -/
structure FlareContext where
  basePath : String
  aliasPath : String
  targetRelative : String
deriving DecidableEq, Repr

/-- Base normalisation of `finalizeFromBaseAndAlias`: keep `"/"`, strip
trailing slashes otherwise. -/
def normBase (basePath : String) : String :=
  if basePath = "/" then "/" else stripTrailingSlashes basePath

/-- The probe prefix computed from a normalised base:
`base === "/" ? "/" : base + "/"`. -/
def basePrefix (base : String) : String := if base = "/" then "/" else base ++ "/"

/-- The shared `targetRelative` computation: the remainder after the prefix
when the path starts with it, else the path with one leading slash
removed. -/
def targetRelOf (p pfx : String) : String :=
  if strStartsWith p pfx then strDrop p pfx.length else stripOneLeadingSlash p

/-- `finalizeFromBaseAndAlias(basePath, aliasPath)` at current pathname `p`:
normalise the base (keep `"/"`, strip trailing slashes otherwise), give the
alias a leading slash, and compute `targetRelative` by removing the
`base + "/"` prefix when it matches, else stripping one leading slash. -/
def finalizeFromBaseAndAlias (basePath aliasPath p : String) : FlareContext :=
  ⟨normBase basePath,
   if strStartsWith aliasPath "/" then aliasPath else "/" ++ aliasPath,
   targetRelOf p (basePrefix (normBase basePath))⟩

/-- `discoverFlareContextAutoprobe()` with the sequential `Alias.xml` probe
modelled by the oracle `probeOk` (whether `<base>/Data/Alias.xml` answers
with a successful status).  On success the alias path is
`(origin + joinBase(base,"Data/Alias.xml")).replace(origin,"")`, which is
`joinBase base "Data/Alias.xml"` because the origin is the leading prefix
of the URL it built; the all-probes-failed branch uses the heuristic base
(`Content` prefix, else the filename-stripped path). -/
def discoverFlareContextAutoprobe (p : String) (probeOk : String → Bool) : FlareContext :=
  let parts := splitPath p
  let basePath :=
    match (candidateBases p).find? (fun b => probeOk b) with
    | some base => base
    | none =>
      match lastIdxOf parts "Content" with
      | some k => joinPath (parts.take k)
      | none =>
        if hasFileExt (parts.getLastD "") then joinPath parts.dropLast else joinPath parts
  ⟨basePath, joinBase basePath "Data/Alias.xml",
   targetRelOf p (stripTrailingSlashes basePath ++ "/")⟩

/-- The inline settings after `getInlineConfig()` coercion: `basePath` and
`aliasPath` are present only when the raw values are strings, and
`defaultExt` has already been lowercased (or defaulted to `"htm"`). -/
structure InlineConfig where
  useCustomSettings : Bool
  basePath : Option String
  aliasPath : Option String
  defaultExt : String
deriving DecidableEq, Repr

/-- JavaScript truthiness of an optional string (`undefined` and `""` are
falsy). -/
def isTruthyStr : Option String → Bool
  | some s => s != ""
  | none => false

/-- JavaScript `opt || d` for an optional string. -/
def jsOrOpt (o : Option String) (d : String) : String :=
  match o with
  | some s => jsOrStr s d
  | none => d

/-- `discoverFlareContextWithInline()`: the override path when
`useCustomSettings` and at least one of basePath/aliasPath is truthy,
otherwise auto-discovery; also yields `_defaultExt`. -/
def discoverFlareContextWithInline (cfg : InlineConfig) (p : String)
    (probeOk : String → Bool) : FlareContext × String :=
  if cfg.useCustomSettings && (isTruthyStr cfg.basePath || isTruthyStr cfg.aliasPath) then
    let base := jsOrOpt cfg.basePath "/"
    let aliasP := jsOrOpt cfg.aliasPath
      (if base = "/" then "/Data/Alias.xml" else stripTrailingSlashes base ++ "/Data/Alias.xml")
    (finalizeFromBaseAndAlias base aliasP p, jsOrStr cfg.defaultExt "htm")
  else
    (discoverFlareContextAutoprobe p probeOk, "htm")

/-- The pieces of `window.location` the script reads. -/
structure PageLocation where
  origin : String
  pathname : String
  href : String
deriving DecidableEq, Repr

/-- JavaScript template interpolation of a possibly-null id
(`null` prints as `"null"`). -/
def renderId : Option String → String
  | some s => s
  | none => "null"

/-- The URL computation of `handleCopyUrlClick`: discover the context, ask
`getCshId`, and build either the
`<origin><joinBase base Default.ext>#cshid=<id>` URL or the stripped
current-page URL.  Returns the final URL and the alias cache left behind. -/
def resolveFinalUrl (cfg : InlineConfig) (loc : PageLocation) (probeOk : String → Bool)
    (cache : Option AliasCache) (now : Nat) (fetch : FetchOutcome)
    (parse : String → List MapRec) : String × Option AliasCache :=
  let ctxExt := discoverFlareContextWithInline cfg loc.pathname probeOk
  let res := getCshId cache now fetch parse ctxExt.1.aliasPath ctxExt.1.targetRelative
  match res.1 with
  | some hit =>
    let ext := jsOrStr hit.correctExtension (jsOrStr ctxExt.2 "htm")
    (loc.origin ++ joinBase ctxExt.1.basePath ("Default." ++ ext) ++ "#cshid="
        ++ renderId hit.cshId, res.2)
  | none => (stripUrlVariables loc.href, res.2)

/-- A DOM event as the script sees it (only `isTrusted` matters). -/
structure DomEvent where
  isTrusted : Bool
deriving DecidableEq, Repr

/-- `event?.isTrusted` coerced to boolean: an absent event is untrusted. -/
def isTrustedOf : Option DomEvent → Bool
  | some e => e.isTrusted
  | none => false

/-- `handleCopyUrlClick(event)`: the trusted-event gate, then the URL
computation.  `none` means the handler returned without resolving. -/
def handleCopyUrlClick (ev : Option DomEvent) (cfg : InlineConfig) (loc : PageLocation)
    (probeOk : String → Bool) (cache : Option AliasCache) (now : Nat)
    (fetch : FetchOutcome) (parse : String → List MapRec) :
    Option (String × Option AliasCache) :=
  if isTrustedOf ev then some (resolveFinalUrl cfg loc probeOk cache now fetch parse)
  else none

/-- Observable outcome of `copyToClipboard`. -/
inductive CopyOutcome where
  | blocked
  | clipboardWrite (text : String)
  | execCopy (text : String)
  | manualDialog (text : String)
deriving DecidableEq, Repr

/-- `copyToClipboard(text, event)`: the trusted-event gate, then the secure
clipboard write (falling back to the manual dialog on rejection), then the
`execCommand` path (dialog on failure). -/
def copyToClipboard (text : String) (ev : Option DomEvent)
    (secureCtx clipAvail writeOk execAvail execOk : Bool) : CopyOutcome :=
  if !(isTrustedOf ev) then .blocked
  else if secureCtx && clipAvail then
    if writeOk then .clipboardWrite text else .manualDialog text
  else if execAvail && execOk then .execCopy text
  else .manualDialog text

/-- Modelled from the spec (section 4.2): the claimed formula
"targetRelativePath is computed as: the remainder after `basePath + \"/\"`
when the current path starts with that prefix, otherwise the full current
path with a single leading slash removed", taken at its word with the
prefix literally `basePath + "/"`. -/
def targetRelativeSpec (basePath p : String) : String :=
  targetRelOf p (basePath ++ "/")

end CopyCsh

namespace CopyCsh

/-- Claim C5: `stripUrlVariables` removes everything from the first `?` or
`#` of a URL -- `stripUrlVariables "https://x/y/page.htm?a=1#frag" =
"https://x/y/page.htm"` -- and it is idempotent: for every URL string,
applying it twice yields the same result as applying it once. -/
theorem stripUrlVariables_strips_and_idempotent :
    stripUrlVariables "https://x/y/page.htm?a=1#frag" = "https://x/y/page.htm" ∧
    ∀ url : String, stripUrlVariables (stripUrlVariables url) = stripUrlVariables url := by
  constructor
  · decide
  · intro url
    have h1 : (((url.data.takeWhile (· != '?')).takeWhile (· != '#')).takeWhile (· != '?'))
        = ((url.data.takeWhile (· != '?')).takeWhile (· != '#')) := by
      rw [List.takeWhile_eq_self_iff]
      intro x hx
      have hx2 : x ∈ url.data.takeWhile (· != '?') :=
        List.takeWhile_subset (l := url.data.takeWhile (· != '?')) (· != '#') hx
      exact List.mem_takeWhile_imp (p := (· != '?')) (l := url.data) hx2
    have h2 : (((url.data.takeWhile (· != '?')).takeWhile (· != '#')).takeWhile (· != '#'))
        = ((url.data.takeWhile (· != '?')).takeWhile (· != '#')) := by
      rw [List.takeWhile_eq_self_iff]
      intro x hx
      exact List.mem_takeWhile_imp (p := (· != '#'))
        (l := url.data.takeWhile (· != '?')) hx
    show ofChars ((((url.data.takeWhile (· != '?')).takeWhile (· != '#')).takeWhile
          (· != '?')).takeWhile (· != '#'))
        = ofChars ((url.data.takeWhile (· != '?')).takeWhile (· != '#'))
    rw [h1, h2]

/-- Claim C2: lookup normalises the target (trim, lowercase, optional
`content/` strip, bare filename) and probes the key spaces full, then
content-stripped, then filename, returning the first match.  Concretely: for
the manifest record `content/a/b.htm -> IDX1` both `Content/A/B.htm`
(case-insensitive full match, the full key space itself hits) and `b.htm`
(full and content-stripped key spaces miss, filename key space hits)
succeed, trimming also applies, and when the full key space and the filename
key space hold different records the full one wins. -/
theorem lookup_three_key_precedence :
    lookupIndex (buildAliasIndex [⟨"content/a/b.htm", some "IDX1"⟩]) "Content/A/B.htm"
        = some ⟨"content/a/b.htm", some "IDX1", "htm"⟩
    ∧ (buildAliasIndex [⟨"content/a/b.htm", some "IDX1"⟩]).full.lookup
          (normLink "Content/A/B.htm")
        = some ⟨"content/a/b.htm", some "IDX1", "htm"⟩
    ∧ lookupIndex (buildAliasIndex [⟨"content/a/b.htm", some "IDX1"⟩]) "b.htm"
        = some ⟨"content/a/b.htm", some "IDX1", "htm"⟩
    ∧ (buildAliasIndex [⟨"content/a/b.htm", some "IDX1"⟩]).full.lookup (normLink "b.htm")
        = none
    ∧ (buildAliasIndex [⟨"content/a/b.htm", some "IDX1"⟩]).noContent.lookup
          (noContentKey (normLink "b.htm")) = none
    ∧ lookupIndex (buildAliasIndex [⟨"content/a/b.htm", some "IDX1"⟩]) "  CONTENT/A/B.HTM  "
        = some ⟨"content/a/b.htm", some "IDX1", "htm"⟩
    ∧ lookupIndex
          (buildAliasIndex [⟨"b.htm", some "TOPID"⟩, ⟨"content/d/b.htm", some "DEEPID"⟩])
          "b.htm" = some ⟨"b.htm", some "TOPID", "htm"⟩
    ∧ (buildAliasIndex [⟨"b.htm", some "TOPID"⟩, ⟨"content/d/b.htm", some "DEEPID"⟩]).file.lookup
          "b.htm" = some ⟨"content/d/b.htm", some "DEEPID", "htm"⟩
    ∧ lookupIndex (buildAliasIndex [⟨"content/a/b.htm", some "A1"⟩, ⟨"x/b.htm", some "C1"⟩])
          "a/b.htm" = some ⟨"content/a/b.htm", some "A1", "htm"⟩ := by
  set_option maxRecDepth 100000 in decide

/-- `find?` returns the head of the filtered list. -/
theorem find?_eq_head?_filter (p : α → Bool) (l : List α) :
    l.find? p = (l.filter p).head? := by
  induction l with
  | nil => rfl
  | cons a l ih =>
    by_cases h : p a = true
    · rw [List.find?_cons_of_pos _ h, List.filter_cons_of_pos h, List.head?_cons]
    · rw [List.find?_cons_of_neg _ h, List.filter_cons_of_neg h, ih]

/-- Association-list lookup over key-tagged entries is `find?` on the key. -/
theorem lookup_map_key (key : AliasEntry → String) (es : List AliasEntry) (k : String) :
    (es.map (fun e => (key e, e))).lookup k = es.find? (fun e => k == key e) := by
  induction es with
  | nil => rfl
  | cons e es ih =>
    cases h : (k == key e) with
    | true => simp [List.lookup_cons, List.find?_cons, h]
    | false => simp [List.lookup_cons, List.find?_cons, h, ih]

/-- The three key spaces accumulated by the registration loop, relative to an
arbitrary starting index (the loop conses, so registration order is
reversed in the association lists). -/
theorem foldl_indexStep_fields (ms : List MapRec) (idx : AliasIndex) :
    (List.foldl indexStep idx ms).full
        = ((ms.filterMap validEntry).map (fun e => (e.link, e))).reverse ++ idx.full
    ∧ (List.foldl indexStep idx ms).noContent
        = ((ms.filterMap validEntry).map (fun e => (noContentKey e.link, e))).reverse
            ++ idx.noContent
    ∧ (List.foldl indexStep idx ms).file
        = ((ms.filterMap validEntry).map (fun e => (fileKey e.link, e))).reverse ++ idx.file := by
  induction ms generalizing idx with
  | nil => simp
  | cons m ms ih =>
    have hstep := ih (indexStep idx m)
    cases h : validEntry m with
    | none =>
      simpa [List.foldl_cons, List.filterMap_cons, h, indexStep] using ih (indexStep idx m)
    | some e =>
      have h1 := (ih (indexStep idx m)).1
      have h2 := (ih (indexStep idx m)).2.1
      have h3 := (ih (indexStep idx m)).2.2
      simp only [indexStep, h] at h1 h2 h3
      refine ⟨?_, ?_, ?_⟩ <;>
        simp [List.foldl_cons, List.filterMap_cons, h, indexStep, h1, h2, h3,
          List.append_assoc]

/-- Lookup in one reversed key-tagged list is the last matching entry. -/
theorem lookup_reverse_map_key (key : AliasEntry → String) (es : List AliasEntry)
    (k : String) :
    ((es.map (fun e => (key e, e))).reverse).lookup k
        = (es.filter (fun e => k == key e)).getLast? := by
  rw [← List.map_reverse, lookup_map_key, find?_eq_head?_filter, List.filter_reverse,
    List.head?_reverse]

/-- Claim C8: when several manifest records share the same normalised link,
the index built on rebuild holds, in each of its three key spaces and under
every key, the last-registered matching record (last-write-wins): each
lookup equals the last element of the registration sequence carrying that
key. -/
theorem index_last_write_wins (ms : List MapRec) (k : String) :
    (buildAliasIndex ms).full.lookup k
        = ((ms.filterMap validEntry).filter (fun e => k == e.link)).getLast?
    ∧ (buildAliasIndex ms).noContent.lookup k
        = ((ms.filterMap validEntry).filter (fun e => k == noContentKey e.link)).getLast?
    ∧ (buildAliasIndex ms).file.lookup k
        = ((ms.filterMap validEntry).filter (fun e => k == fileKey e.link)).getLast? := by
  have h := foldl_indexStep_fields ms emptyIndex
  refine ⟨?_, ?_, ?_⟩
  · rw [buildAliasIndex, h.1]
    simpa [emptyIndex] using lookup_reverse_map_key (fun e => e.link) (ms.filterMap validEntry) k
  · rw [buildAliasIndex, h.2.1]
    simpa [emptyIndex] using
      lookup_reverse_map_key (fun e => noContentKey e.link) (ms.filterMap validEntry) k
  · rw [buildAliasIndex, h.2.2]
    simpa [emptyIndex] using
      lookup_reverse_map_key (fun e => fileKey e.link) (ms.filterMap validEntry) k

/-- Inserting an element makes it a member. -/
theorem mem_setAdd_self (l : List String) (x : String) : x ∈ setAdd l x := by
  unfold setAdd
  by_cases h : x ∈ l
  · rw [if_pos h]; exact h
  · rw [if_neg h]; exact List.mem_append_right _ (List.mem_singleton.mpr rfl)

/-- `setAdd` preserves a property that the new element satisfies. -/
theorem setAdd_forall {P : String → Prop} {l : List String} {x : String}
    (hl : ∀ y ∈ l, P y) (hx : P x) : ∀ y ∈ setAdd l x, P y := by
  unfold setAdd
  by_cases h : x ∈ l
  · rw [if_pos h]; exact hl
  · rw [if_neg h]
    intro y hy
    rcases List.mem_append.mp hy with hy | hy
    · exact hl y hy
    · rw [List.mem_singleton.mp hy]; exact hx

/-- Inserting a genuinely new element puts it last. -/
theorem setAdd_getLast?_of_ne {l : List String} {x : String} (h : ∀ y ∈ l, y ≠ x) :
    (setAdd l x).getLast? = some x := by
  have hx : x ∉ l := fun hm => h x hm rfl
  unfold setAdd
  rw [if_neg hx]
  exact List.getLast?_concat l

/-- A property preserved by each step survives a fold. -/
theorem foldl_preserve {α β : Type} (P : α → Prop) (step : α → β → α) :
    ∀ (l : List β) (init : α), (∀ a b, b ∈ l → P a → P (step a b)) → P init →
      P (List.foldl step init l)
  | [], _, _, h0 => h0
  | b :: l, init, h, h0 =>
    foldl_preserve P step l (step init b)
      (fun a b' hb' ha => h a b' (List.mem_cons_of_mem _ hb') ha)
      (h init b (List.mem_cons_self _ _) h0)

/-- Loop counters of the ancestor walk lie between 1 and `n`. -/
theorem mem_ancestorIs {n i : Nat} (h : i ∈ ancestorIs n) : 1 ≤ i ∧ i ≤ n := by
  unfold ancestorIs at h
  obtain ⟨k, hk, rfl⟩ := List.mem_map.mp h
  have := List.mem_range.mp hk
  omega

/-- Segments produced by `splitPath` are non-empty. -/
theorem splitPath_ne_empty {p : String} : ∀ s ∈ splitPath p, s ≠ "" := by
  intro s hs
  have := (List.mem_filter.mp hs).2
  simpa using this

/-- `splitAux` never puts the separator inside a segment. -/
theorem splitAux_no_sep {sep : Char} :
    ∀ (cs cur : List Char), sep ∉ cur → ∀ seg ∈ splitAux sep cur cs, sep ∉ seg := by
  intro cs
  induction cs with
  | nil =>
    intro cur hcur seg hseg
    simp only [splitAux, List.mem_singleton] at hseg
    rw [hseg]
    simpa using hcur
  | cons c rest ih =>
    intro cur hcur seg hseg
    unfold splitAux at hseg
    by_cases hc : (c == sep) = true
    · rw [if_pos hc] at hseg
      rcases List.mem_cons.mp hseg with hseg | hseg
      · rw [hseg]; simpa using hcur
      · exact ih [] (by simp) seg hseg
    · rw [if_neg hc] at hseg
      refine ih (c :: cur) ?_ seg hseg
      intro hmem
      rcases List.mem_cons.mp hmem with hmem | hmem
      · rw [hmem] at hc; simp at hc
      · exact hcur hmem

/-- Segments produced by `splitPath` contain no slash. -/
theorem splitPath_no_slash {p : String} : ∀ s ∈ splitPath p, '/' ∉ s.data := by
  intro s hs
  have hs1 : s ∈ splitString '/' p := (List.mem_filter.mp hs).1
  obtain ⟨seg, hseg, rfl⟩ := List.mem_map.mp hs1
  have := splitAux_no_sep p.data [] (by simp) seg hseg
  simpa [ofChars] using this

/-- `joinSegs` of a non-empty list of non-empty segments is non-empty. -/
theorem joinSegs_ne_nil {l : List String} (hne : l ≠ []) (h : ∀ s ∈ l, s ≠ "") :
    joinSegs l ≠ [] := by
  match l, hne with
  | [a], _ =>
    have ha : a ≠ "" := h a (List.mem_singleton.mpr rfl)
    simp only [joinSegs]
    intro hd
    exact ha (by cases a; simp_all [String.ext_iff])
  | a :: b :: rest, _ =>
    simp only [joinSegs]
    intro hd
    exact absurd (List.append_eq_nil.mp hd).2 (by simp)

/-- `joinPath` of a non-empty list of non-empty segments is not the root. -/
theorem joinPath_ne_root {l : List String} (hne : l ≠ []) (h : ∀ s ∈ l, s ≠ "") :
    joinPath l ≠ "/" := by
  intro heq
  have hdata : '/' :: joinSegs l = ['/'] := by
    have := congrArg String.data heq
    simpa [joinPath, ofChars] using this
  have : joinSegs l = [] := by injection hdata
  exact joinSegs_ne_nil hne h this

/-- The last character of `joinSegs` over slash-free non-empty segments is
not a slash. -/
theorem joinSegs_getLast?_ne_slash {l : List String}
    (h : ∀ s ∈ l, s ≠ "" ∧ '/' ∉ s.data) :
    ∀ c, (joinSegs l).getLast? = some c → c ≠ '/' := by
  induction l with
  | nil => intro c hc; simp [joinSegs] at hc
  | cons a rest ih =>
    intro c hc
    cases rest with
    | nil =>
      simp only [joinSegs] at hc
      have := List.mem_of_getLast?_eq_some hc
      intro hcontra
      exact (h a (List.mem_singleton.mpr rfl)).2 (hcontra ▸ this)
    | cons b rest2 =>
      simp only [joinSegs] at hc
      have hne2 : joinSegs (b :: rest2) ≠ [] :=
        joinSegs_ne_nil (by simp) (fun s hs => (h s (List.mem_cons_of_mem _ hs)).1)
      have hsome : ('/' :: joinSegs (b :: rest2)).getLast? = (joinSegs (b :: rest2)).getLast? := by
        cases hj : joinSegs (b :: rest2) with
        | nil => exact absurd hj hne2
        | cons x t => simp
      rw [List.getLast?_append, hsome] at hc
      cases hlast : (joinSegs (b :: rest2)).getLast? with
      | none => exact absurd (List.getLast?_eq_none_iff.mp hlast) hne2
      | some x =>
        rw [hlast] at hc
        have hxc : x = c := by simpa [Option.or] using hc
        exact ih (fun s hs => h s (List.mem_cons_of_mem _ hs)) c (hxc ▸ hlast)

/-- `joinPath` over slash-free non-empty segments is either the root or does
not end in a slash. -/
theorem joinPath_root_or_no_trailing {l : List String}
    (h : ∀ s ∈ l, s ≠ "" ∧ '/' ∉ s.data) :
    joinPath l = "/" ∨ (joinPath l).data.getLast? ≠ some '/' := by
  cases l with
  | nil => left; rfl
  | cons a rest =>
    right
    have hne : joinSegs (a :: rest) ≠ [] :=
      joinSegs_ne_nil (by simp) (fun s hs => (h s hs).1)
    have hdata : (joinPath (a :: rest)).data = '/' :: joinSegs (a :: rest) := rfl
    rw [hdata]
    cases hj : joinSegs (a :: rest) with
    | nil => exact absurd hj hne
    | cons x t =>
      rw [← hj, List.getLast?_cons]
      cases hlast : (joinSegs (a :: rest)).getLast? with
      | none => exact absurd (List.getLast?_eq_none_iff.mp hlast) hne
      | some c =>
        have := joinSegs_getLast?_ne_slash h c hlast
        simpa using this

/-- A successful `matchDocsAt` capture does not end in a slash (its last
character maps to `v` under lowercasing). -/
theorem matchDocsAt_getLast?_ne {cs m : List Char} (h : matchDocsAt cs = some m) :
    m.getLast? ≠ some '/' := by
  unfold matchDocsAt at h
  by_cases h6 : (cs.take 6).map Char.toLower = "/docs/".data
  case neg => rw [if_neg h6] at h; exact absurd h (by simp)
  rw [if_pos h6] at h
  by_cases hseg : ((docsSeg cs).isEmpty) = true
  case pos => rw [if_pos hseg] at h; exact absurd h (by simp)
  rw [if_neg hseg] at h
  by_cases h7 : ((docsRest2 cs).take 7).map Char.toLower = "/topnav".data
  case neg => rw [if_neg h7] at h; exact absurd h (by simp)
  rw [if_pos h7] at h
  split at h
  case _ =>
    injection h with hm
    subst hm
    have hlen6 : (cs.take 6).length = 6 := by
      have := congrArg List.length h6
      simpa using this
    have hseg_take : docsSeg cs = (cs.drop 6).take (docsSeg cs).length :=
      List.prefix_iff_eq_take.mp (List.takeWhile_prefix _)
    have hsplit : cs.drop 6 = docsSeg cs ++ docsRest2 cs := by
      conv_lhs => rw [← List.take_append_drop (docsSeg cs).length (cs.drop 6)]
      rw [← hseg_take]
      rfl
    have hcs : cs = cs.take 6 ++ (docsSeg cs ++ docsRest2 cs) := by
      conv_lhs => rw [← List.take_append_drop 6 cs]
      rw [hsplit]
    have hlen7 : ((docsRest2 cs).take 7).length = 7 := by
      have := congrArg List.length h7
      simpa using this
    set A := cs.take 6 with hA
    set B := docsSeg cs with hB
    set C := docsRest2 cs with hC
    rw [hcs, List.take_append_eq_append_take,
      List.take_of_length_le (by rw [hlen6]; omega), hlen6]
    have he1 : 6 + B.length + 7 - 6 = B.length + 7 := by omega
    rw [he1, List.take_append_eq_append_take,
      List.take_of_length_le (Nat.le_add_right _ 7)]
    have he2 : B.length + 7 - B.length = 7 := by omega
    rw [he2]
    have htne : C.take 7 ≠ [] := by
      intro hnil
      rw [hnil] at hlen7
      simp at hlen7
    cases hx : (C.take 7).getLast? with
    | none => exact absurd (List.getLast?_eq_none_iff.mp hx) htne
    | some x =>
      have hmapLast : ((C.take 7).map Char.toLower).getLast? = some 'v' := by
        rw [h7]
        decide
      rw [List.getLast?_map, hx] at hmapLast
      have hxv : x.toLower = 'v' := by simpa using hmapLast
      have hfin : (A ++ (B ++ C.take 7)).getLast? = some x := by
        rw [List.getLast?_append, List.getLast?_append, hx]
        rfl
      rw [hfin]
      intro hcontra
      have hxs : x = '/' := by injection hcontra
      rw [hxs] at hxv
      exact absurd hxv (by decide)
  case _ => exact absurd h (by simp)

/-- The first `/Docs/<ver>/TopNav` match in a path does not end in a slash. -/
theorem scanDocs_getLast?_ne (cs : List Char) :
    ∀ m, scanDocs cs = some m → m.getLast? ≠ some '/' := by
  induction cs with
  | nil => intro m h; exact absurd h (by simp [scanDocs])
  | cons c rest ih =>
    intro m h
    unfold scanDocs at h
    cases hm : matchDocsAt (c :: rest) with
    | some m2 =>
      rw [hm] at h
      injection h with h2
      exact h2 ▸ matchDocsAt_getLast?_ne hm
    | none =>
      rw [hm] at h
      exact ih m h

/-- The regex candidate is neither the root nor slash-terminated. -/
theorem docsTopNavMatch_props {p m : String} (h : docsTopNavMatch p = some m) :
    m ≠ "/" ∧ endsWithSlash m = false := by
  unfold docsTopNavMatch at h
  cases hs : scanDocs p.data with
  | none => rw [hs] at h; exact absurd h (by simp)
  | some mc =>
    rw [hs] at h
    have hm : m = ofChars mc := by
      simpa using h.symm
    have hlast := scanDocs_getLast?_ne p.data mc hs
    subst hm
    constructor
    · intro heq
      have hd : mc = ['/'] := by
        have := congrArg String.data heq
        simpa [ofChars] using this
      rw [hd] at hlast
      exact hlast rfl
    · have : (ofChars mc).data.getLast? ≠ some '/' := hlast
      simp only [endsWithSlash]
      exact beq_eq_false_iff_ne.mpr this

/-- No element after the regex step is the root. -/
theorem candidatesAfterDocs_ne_root (p : String) :
    ∀ x ∈ candidatesAfterDocs p, x ≠ "/" := by
  unfold candidatesAfterDocs
  cases hm : docsTopNavMatch p with
  | none => simp
  | some m =>
    intro x hx
    have hx2 : x = m := by simpa [setAdd] using hx
    exact hx2 ▸ (docsTopNavMatch_props hm).1

/-- No element after the `Content`-prefix step is the root, provided the
last `Content` segment is not the first segment. -/
theorem candidatesAfterContent_ne_root (p : String)
    (hK : lastIdxOf (splitPath p) "Content" ≠ some 0) :
    ∀ x ∈ candidatesAfterContent p, x ≠ "/" := by
  unfold candidatesAfterContent
  cases hk : lastIdxOf (splitPath p) "Content" with
  | none => exact candidatesAfterDocs_ne_root p
  | some k =>
    have hk0 : k ≠ 0 := by
      rintro rfl
      exact hK hk
    refine setAdd_forall (candidatesAfterDocs_ne_root p) ?_
    apply joinPath_ne_root
    · intro hnil
      rcases List.take_eq_nil_iff.mp hnil with h0 | h0
      · exact hk0 h0
      · rw [h0] at hk
        simp [lastIdxOf] at hk
    · intro s hs
      exact splitPath_ne_empty s (List.take_subset _ _ hs)

/-- No element after the ancestor walk is the root, under the same
condition. -/
theorem candidatesAfterAncestors_ne_root (p : String)
    (hK : lastIdxOf (splitPath p) "Content" ≠ some 0) :
    ∀ x ∈ candidatesAfterAncestors p, x ≠ "/" := by
  unfold candidatesAfterAncestors
  refine foldl_preserve (fun acc => ∀ x ∈ acc, x ≠ "/") (ancestorStep (splitPath p)) _ _ ?_
    (candidatesAfterContent_ne_root p hK)
  intro acc i hi hacc
  obtain ⟨hi1, hi2⟩ := mem_ancestorIs hi
  simp only [ancestorStep]
  by_cases hext : hasFileExt ((splitPath p).getD (i - 1) "") = true
  · rw [if_pos hext]
    by_cases hgt : i - 1 > 0
    · rw [if_pos hgt]
      refine setAdd_forall hacc ?_
      apply joinPath_ne_root
      · intro hnil
        rcases List.take_eq_nil_iff.mp hnil with h0 | h0
        · omega
        · rw [h0] at hi2
          simp at hi2
          omega
      · intro s hs
        exact splitPath_ne_empty s (List.take_subset _ _ hs)
    · rw [if_neg hgt]
      exact hacc
  · rw [if_neg hext]
    refine setAdd_forall hacc ?_
    apply joinPath_ne_root
    · intro hnil
      rcases List.take_eq_nil_iff.mp hnil with h0 | h0
      · omega
      · rw [h0] at hi2
        simp at hi2
        omega
    · intro s hs
      exact splitPath_ne_empty s (List.take_subset _ _ hs)

/-- Counterexample to C3: on the path `/Docs/2024/TopNav/Content/x/y.htm`
the versioned-documentation candidate and the content-root-prefix candidate
are the same string `/Docs/2024/TopNav`; the de-duplicated list holds it
exactly once, so the versioned candidate is not placed strictly before the
content-root candidate. -/
theorem candidate_order_strict_counterexample :
    docsTopNavMatch "/Docs/2024/TopNav/Content/x/y.htm" = some "/Docs/2024/TopNav"
    ∧ contentRootCandidate "/Docs/2024/TopNav/Content/x/y.htm" = some "/Docs/2024/TopNav"
    ∧ (candidateBases "/Docs/2024/TopNav/Content/x/y.htm").count "/Docs/2024/TopNav" = 1
    ∧ ¬ ((candidateBases "/Docs/2024/TopNav/Content/x/y.htm").findIdx
            (· == "/Docs/2024/TopNav")
          < (candidateBases "/Docs/2024/TopNav/Content/x/y.htm").findIdx
            (· == "/Docs/2024/TopNav")) := by
  set_option maxRecDepth 100000 in decide

/-- Claim C3 (amended): for `/Docs/2024/TopNav/Content/x/y.htm` the
versioned-documentation candidate and the content-root-prefix candidate
coincide (`/Docs/2024/TopNav`) and occupy the first position -- so the
versioned candidate is probed no later than the content-root candidate --
followed by the generic ancestor candidates, with the site root `/` last. -/
theorem candidate_order_amended :
    candidateBases "/Docs/2024/TopNav/Content/x/y.htm"
      = ["/Docs/2024/TopNav", "/Docs/2024/TopNav/Content/x", "/Docs/2024/TopNav/Content",
         "/Docs/2024", "/Docs", "/"]
    ∧ docsTopNavMatch "/Docs/2024/TopNav/Content/x/y.htm" = some "/Docs/2024/TopNav"
    ∧ contentRootCandidate "/Docs/2024/TopNav/Content/x/y.htm" = some "/Docs/2024/TopNav"
    ∧ (candidateBases "/Docs/2024/TopNav/Content/x/y.htm").head? = some "/Docs/2024/TopNav"
    ∧ (candidateBases "/Docs/2024/TopNav/Content/x/y.htm").getLast? = some "/" := by
  set_option maxRecDepth 100000 in decide

/-- Counterexample to C4: for `/Content/a.htm` the prefix before the
top-level `Content` segment is the root itself, which therefore enters the
set first; the final root insertion is then a no-op and `/` is the first
element, not the last. -/
theorem root_last_counterexample :
    candidateBases "/Content/a.htm" = ["/", "/Content"]
    ∧ ¬ ((candidateBases "/Content/a.htm").getLast? = some "/") := by
  set_option maxRecDepth 100000 in decide

/-- Claim C4 (amended): for every page path the candidate list contains the
site root `/`; and whenever the path's last `Content` segment is not its
first segment, `/` is the final element of the list. -/
theorem root_membership_and_last (p : String) :
    "/" ∈ candidateBases p
    ∧ (lastIdxOf (splitPath p) "Content" ≠ some 0 →
        (candidateBases p).getLast? = some "/") := by
  constructor
  · exact mem_setAdd_self (candidatesAfterAncestors p) "/"
  · intro hK
    exact setAdd_getLast?_of_ne (fun y hy => candidatesAfterAncestors_ne_root p hK y hy)

/-- Witness for C4 (amended) at a concrete path. -/
theorem root_membership_and_last_witness :
    "/" ∈ candidateBases "/Docs/v1/Content/t.htm"
    ∧ (candidateBases "/Docs/v1/Content/t.htm").getLast? = some "/" :=
  ⟨(root_membership_and_last "/Docs/v1/Content/t.htm").1,
   (root_membership_and_last "/Docs/v1/Content/t.htm").2
     (by set_option maxRecDepth 100000 in decide)⟩

/-- String append acts as list append on the character data. -/
theorem data_append (a b : String) : (a ++ b).data = a.data ++ b.data := by
  cases a
  cases b
  rfl

/-- A string is rebuilt from its characters. -/
theorem ofChars_data_eq (s : String) : ofChars s.data = s := by
  cases s
  rfl

/-- Starting with a slash is a fact about the first character. -/
theorem startsWithSlash_false_iff (t : String) :
    strStartsWith t "/" = false ↔ t.data.head? ≠ some '/' := by
  unfold strStartsWith
  cases ht : t.data with
  | nil => simp [List.isPrefixOf]
  | cons c r =>
    show (List.isPrefixOf ['/'] (c :: r)) = false ↔ _
    simp [List.isPrefixOf]
    constructor
    · intro h hc
      exact h (by simpa using hc.symm)
    · intro h hc
      exact h (by simpa using hc.symm)

/-- Two adjacent slashes anywhere make `hasDoubleSlash` true. -/
theorem hasDoubleSlash_append (xs ys : List Char) :
    hasDoubleSlash (xs ++ '/' :: '/' :: ys) = true := by
  induction xs with
  | nil => simp [hasDoubleSlash]
  | cons x xs ih =>
    cases hx : xs ++ '/' :: '/' :: ys with
    | nil => exact absurd hx (by simp)
    | cons y t =>
      show hasDoubleSlash (x :: (xs ++ '/' :: '/' :: ys)) = true
      rw [hx]
      simp only [hasDoubleSlash]
      rw [← hx, ih]
      simp

/-- Stripping one leading slash from a double-slash-free string leaves no
leading slash. -/
theorem stripOne_head_ne_slash {p : String} (hp : hasDoubleSlash p.data = false) :
    (stripOneLeadingSlash p).data.head? ≠ some '/' := by
  unfold stripOneLeadingSlash
  split
  case _ rest heq =>
    intro hh
    cases hr : rest with
    | nil =>
      rw [hr] at hh
      simp [ofChars] at hh
    | cons c tt =>
      rw [hr] at hh
      simp [ofChars] at hh
      rw [heq, hr, hh] at hp
      simp [hasDoubleSlash] at hp
  case _ hno =>
    intro hh
    cases hd : p.data with
    | nil => rw [hd] at hh; simp at hh
    | cons c tt =>
      rw [hd] at hh
      simp at hh
      exact hno tt (hh ▸ hd)

/-- The `targetRelative` computation never yields a leading slash when the
prefix ends in a slash and the page path has no double slash. -/
theorem targetRel_head_ne_slash (p pfx : String)
    (hp : hasDoubleSlash p.data = false)
    (hx : pfx.data.getLast? = some '/') :
    strStartsWith (targetRelOf p pfx) "/" = false := by
  unfold targetRelOf
  by_cases hsw : strStartsWith p pfx = true
  · rw [if_pos hsw, startsWithSlash_false_iff]
    intro hhead
    have hpre : pfx.data <+: p.data := List.isPrefixOf_iff_prefix.mp hsw
    obtain ⟨tail, htail⟩ := hpre
    have hdrop : (strDrop p pfx.length).data = tail := by
      show p.data.drop pfx.data.length = tail
      rw [← htail, List.drop_left]
    rw [hdrop] at hhead
    obtain ⟨q, hq⟩ := List.getLast?_eq_some_iff.mp hx
    cases htt : tail with
    | nil => rw [htt] at hhead; simp at hhead
    | cons c tt =>
      rw [htt] at hhead
      simp at hhead
      have hpd : p.data = q ++ '/' :: '/' :: tt := by
        rw [← htail, hq, htt, hhead]
        simp
      rw [hpd, hasDoubleSlash_append] at hp
      simp at hp
  · rw [if_neg hsw, startsWithSlash_false_iff]
    exact stripOne_head_ne_slash hp

/-- A string with no trailing slash is untouched by `stripTrailingSlashes`. -/
theorem stripTrailingSlashes_eq_self {s : String} (h : endsWithSlash s = false) :
    stripTrailingSlashes s = s := by
  unfold endsWithSlash at h
  unfold stripTrailingSlashes
  have hds : s.data.reverse.dropWhile (· == '/') = s.data.reverse := by
    cases hr : s.data.reverse with
    | nil => rfl
    | cons c t =>
      have hc : (c == '/') = false := by
        have hlast : s.data.getLast? = some c := by
          rw [← List.head?_reverse, hr]
          rfl
        rw [hlast] at h
        simpa using h
      rw [List.dropWhile_cons, if_neg (by simp [hc])]
  rw [hds, List.reverse_reverse]
  exact ofChars_data_eq s

/-- `stripTrailingSlashes` output never ends in a slash. -/
theorem stripTrailingSlashes_no_trailing (s : String) :
    endsWithSlash (stripTrailingSlashes s) = false := by
  unfold endsWithSlash stripTrailingSlashes
  show ((((s.data.reverse.dropWhile (· == '/')).reverse).getLast?) == some '/') = false
  rw [List.getLast?_reverse]
  have := List.head?_dropWhile_not (· == '/') s.data.reverse
  cases hh : (s.data.reverse.dropWhile (· == '/')).head? with
  | none => rfl
  | some c =>
    rw [hh] at this
    simpa using this

/-- The invariants of `finalizeFromBaseAndAlias` on double-slash-free
paths. -/
theorem finalize_invariants (basePath aliasPath p : String)
    (hp : hasDoubleSlash p.data = false) :
    strStartsWith (finalizeFromBaseAndAlias basePath aliasPath p).targetRelative "/" = false
    ∧ ((finalizeFromBaseAndAlias basePath aliasPath p).basePath = "/"
        ∨ endsWithSlash (finalizeFromBaseAndAlias basePath aliasPath p).basePath = false) := by
  simp only [finalizeFromBaseAndAlias]
  constructor
  · apply targetRel_head_ne_slash p _ hp
    unfold basePrefix
    by_cases hb : normBase basePath = "/"
    · rw [if_pos hb]
      rfl
    · rw [if_neg hb, data_append]
      exact List.getLast?_concat _
  · by_cases hb : basePath = "/"
    · left
      unfold normBase
      rw [if_pos hb]
    · right
      unfold normBase
      rw [if_neg hb]
      exact stripTrailingSlashes_no_trailing basePath

/-- `joinPath` over a sublist of `splitPath` output satisfies the basePath
invariant. -/
theorem joinPath_invariant {p : String} {l : List String} (hsub : l ⊆ splitPath p) :
    joinPath l = "/" ∨ endsWithSlash (joinPath l) = false := by
  have h : ∀ s ∈ l, s ≠ "" ∧ '/' ∉ s.data := fun s hs =>
    ⟨splitPath_ne_empty s (hsub hs), splitPath_no_slash s (hsub hs)⟩
  rcases joinPath_root_or_no_trailing h with h1 | h1
  · exact Or.inl h1
  · right
    unfold endsWithSlash
    exact beq_eq_false_iff_ne.mpr h1

/-- Every candidate base is either the root or has no trailing slash. -/
theorem candidateBases_invariant (p : String) :
    ∀ x ∈ candidateBases p, x = "/" ∨ endsWithSlash x = false := by
  unfold candidateBases
  apply setAdd_forall
  · unfold candidatesAfterAncestors
    refine foldl_preserve (fun acc => ∀ x ∈ acc, x = "/" ∨ endsWithSlash x = false)
      (ancestorStep (splitPath p)) _ _ ?_ ?_
    · intro acc i _ hacc
      simp only [ancestorStep]
      by_cases hext : hasFileExt ((splitPath p).getD (i - 1) "") = true
      · rw [if_pos hext]
        by_cases hgt : i - 1 > 0
        · rw [if_pos hgt]
          exact setAdd_forall hacc (joinPath_invariant (List.take_subset _ _))
        · rw [if_neg hgt]
          exact hacc
      · rw [if_neg hext]
        exact setAdd_forall hacc (joinPath_invariant (List.take_subset _ _))
    · unfold candidatesAfterContent
      cases hk : lastIdxOf (splitPath p) "Content" with
      | none =>
        unfold candidatesAfterDocs
        cases hm : docsTopNavMatch p with
        | none => simp
        | some m =>
          intro x hx
          have hx2 : x = m := by simpa [setAdd] using hx
          exact hx2 ▸ Or.inr (docsTopNavMatch_props hm).2
      | some k =>
        apply setAdd_forall
        · unfold candidatesAfterDocs
          cases hm : docsTopNavMatch p with
          | none => simp
          | some m =>
            intro x hx
            have hx2 : x = m := by simpa [setAdd] using hx
            exact hx2 ▸ Or.inr (docsTopNavMatch_props hm).2
        · exact joinPath_invariant (List.take_subset _ _)
  · exact Or.inl rfl

/-- The invariants of `discoverFlareContextAutoprobe` on double-slash-free
paths. -/
theorem autoprobe_invariants (p : String) (probeOk : String → Bool)
    (hp : hasDoubleSlash p.data = false) :
    strStartsWith (discoverFlareContextAutoprobe p probeOk).targetRelative "/" = false
    ∧ ((discoverFlareContextAutoprobe p probeOk).basePath = "/"
        ∨ endsWithSlash (discoverFlareContextAutoprobe p probeOk).basePath = false) := by
  simp only [discoverFlareContextAutoprobe]
  constructor
  · apply targetRel_head_ne_slash p _ hp
    rw [data_append]
    exact List.getLast?_concat _
  · cases hf : (candidateBases p).find? (fun b => probeOk b) with
    | some base =>
      exact candidateBases_invariant p base (List.mem_of_find?_eq_some hf)
    | none =>
      cases hk : lastIdxOf (splitPath p) "Content" with
      | some k => exact joinPath_invariant (List.take_subset _ _)
      | none =>
        by_cases hext : hasFileExt ((splitPath p).getLastD "") = true
        · rw [if_pos hext]
          exact joinPath_invariant (List.dropLast_subset _)
        · rw [if_neg hext]
          exact joinPath_invariant (fun s hs => hs)

/-- Counterexample to C7: for the page path `//x` (a pathname with an empty
first segment, as produced by a URL such as `https://host//x`) the resolved
context has `targetRelative = "/x"`, which starts with a slash. -/
theorem context_invariant_counterexample :
    (discoverFlareContextWithInline ⟨false, none, none, "htm"⟩ "//x"
        (fun _ => false)).1.targetRelative = "/x"
    ∧ strStartsWith (discoverFlareContextWithInline ⟨false, none, none, "htm"⟩ "//x"
        (fun _ => false)).1.targetRelative "/" = true := by
  decide

/-- Claim C7 (amended): for every inline configuration and every current
page path containing no two adjacent slashes, the resolved context (override
path or auto-discovery path) satisfies the invariant: `targetRelative` does
not start with `/`, and `basePath` does not end with `/` unless it is
exactly `/`. -/
theorem context_invariant_amended (cfg : InlineConfig) (p : String) (probeOk : String → Bool)
    (hp : hasDoubleSlash p.data = false) :
    strStartsWith (discoverFlareContextWithInline cfg p probeOk).1.targetRelative "/" = false
    ∧ ((discoverFlareContextWithInline cfg p probeOk).1.basePath = "/"
        ∨ endsWithSlash (discoverFlareContextWithInline cfg p probeOk).1.basePath = false) := by
  unfold discoverFlareContextWithInline
  by_cases hc : (cfg.useCustomSettings
      && (isTruthyStr cfg.basePath || isTruthyStr cfg.aliasPath)) = true
  · rw [if_pos hc]
    exact finalize_invariants _ _ p hp
  · rw [if_neg hc]
    exact autoprobe_invariants p probeOk hp

/-- Witness for C7 (amended) at a concrete configuration and path. -/
theorem context_invariant_amended_witness :
    strStartsWith (discoverFlareContextWithInline ⟨false, none, none, "htm"⟩
        "/Docs/v1/Content/topic.htm" (fun _ => false)).1.targetRelative "/" = false
    ∧ ((discoverFlareContextWithInline ⟨false, none, none, "htm"⟩
          "/Docs/v1/Content/topic.htm" (fun _ => false)).1.basePath = "/"
        ∨ endsWithSlash ((discoverFlareContextWithInline ⟨false, none, none, "htm"⟩
            "/Docs/v1/Content/topic.htm" (fun _ => false)).1.basePath) = false) :=
  context_invariant_amended ⟨false, none, none, "htm"⟩ "/Docs/v1/Content/topic.htm"
    (fun _ => false) (by decide)

/-- Counterexample to C6: the code computes the prefix from the normalised
base, not from `basePath + "/"` literally.  For the root base and path
`//x` the code keeps `/x` while the claimed formula gives `x`; for the
trailing-slash base `/a/` and path `/a/x` the code gives `x` while the
claimed formula gives `a/x`. -/
theorem targetRelative_formula_counterexample :
    (finalizeFromBaseAndAlias "/" "/Data/Alias.xml" "//x").targetRelative = "/x"
    ∧ targetRelativeSpec "/" "//x" = "x"
    ∧ (finalizeFromBaseAndAlias "/a/" "/a/Data/Alias.xml" "/a/x").targetRelative = "x"
    ∧ targetRelativeSpec "/a/" "/a/x" = "a/x" := by
  decide

/-- On a string starting with a slash, dropping one character is the same
as stripping the leading slash. -/
theorem strDrop_one_of_startsWithSlash {p : String} (h : strStartsWith p "/" = true) :
    strDrop p 1 = stripOneLeadingSlash p := by
  unfold strStartsWith at h
  cases hd : p.data with
  | nil => rw [hd] at h; simp [List.isPrefixOf] at h
  | cons c r =>
    rw [hd] at h
    have hc : ('/' == c) = true := by
      cases hbc : ('/' == c) with
      | true => rfl
      | false =>
        rw [List.isPrefixOf, hbc] at h
        simp at h
    have hc2 : c = '/' := (beq_iff_eq.mp hc).symm
    subst hc2
    have hL : strDrop p 1 = ofChars r := by
      unfold strDrop
      rw [hd]
      rfl
    have hR : stripOneLeadingSlash p = ofChars r := by
      unfold stripOneLeadingSlash
      rw [hd]
      rfl
    rw [hL, hR]

/-- Claim C6 (amended): targetRelativePath is the remainder after the
normalised-base prefix when it matches, else the path minus one leading
slash: for every basePath that does not end in `/` (other than the root
itself) the prefix is literally `basePath + "/"` as the claim states, and
for the root base the prefix is `/` itself, which agrees with the claimed
formula on every path not beginning with `//`; in particular with override
basePath `/Docs/v1` and path `/Docs/v1/Content/topic.htm` the result is
`Content/topic.htm`. -/
theorem targetRelative_formula_amended (basePath aliasPath p : String)
    (h1 : basePath = "/" → strStartsWith p "//" = false)
    (h2 : basePath ≠ "/" → endsWithSlash basePath = false) :
    (finalizeFromBaseAndAlias basePath aliasPath p).targetRelative
      = targetRelativeSpec basePath p := by
  by_cases hb : basePath = "/"
  · subst hb
    show targetRelOf p (basePrefix (normBase "/")) = targetRelativeSpec "/" p
    have hnb : normBase "/" = "/" := by
      unfold normBase
      rw [if_pos rfl]
    have hbp : basePrefix "/" = "/" := by
      unfold basePrefix
      rw [if_pos rfl]
    rw [hnb, hbp]
    unfold targetRelativeSpec targetRelOf
    have hcat : ("/" : String) ++ "/" = "//" := rfl
    rw [hcat]
    have hss : ¬ strStartsWith p "//" = true := by simp [h1 rfl]
    conv_rhs => rw [if_neg hss]
    by_cases hsp : strStartsWith p "/" = true
    · rw [if_pos hsp]
      exact strDrop_one_of_startsWithSlash hsp
    · rw [if_neg hsp]
  · have hb2 : endsWithSlash basePath = false := h2 hb
    show targetRelOf p (basePrefix (normBase basePath)) = targetRelativeSpec basePath p
    have hnb : normBase basePath = basePath := by
      unfold normBase
      rw [if_neg hb]
      exact stripTrailingSlashes_eq_self hb2
    rw [hnb]
    unfold basePrefix
    rw [if_neg hb]
    rfl

/-- Witness for C6 (amended): the claim's own example. -/
theorem targetRelative_formula_amended_witness :
    (finalizeFromBaseAndAlias "/Docs/v1" "/Docs/v1/Data/Alias.xml"
        "/Docs/v1/Content/topic.htm").targetRelative = "Content/topic.htm" := by
  have h := targetRelative_formula_amended "/Docs/v1" "/Docs/v1/Data/Alias.xml"
      "/Docs/v1/Content/topic.htm" (fun hq => absurd hq (by decide)) (fun _ => by decide)
  rw [h]
  decide

/-- Claim C1: the URL computation of `handleCopyUrlClick` always produces a
string and never rejects (the model is a total `String`-valued function and
`getCshId` absorbs every thrown error); in particular, when every discovery
probe fails and the manifest fetch fails, under any inline configuration
and with no warm cache, the resulting URL is the current page URL stripped
at its first `?` or `#`. -/
theorem resolve_all_fail_fallback (cfg : InlineConfig) (loc : PageLocation)
    (probeOk : String → Bool) (parse : String → List MapRec) (now : Nat)
    (hprobe : ∀ b, probeOk b = false) :
    (resolveFinalUrl cfg loc probeOk none now .failure parse).1
      = stripUrlVariables loc.href := rfl

/-- Witness for C1 at a concrete page. -/
theorem resolve_all_fail_fallback_witness :
    (resolveFinalUrl ⟨false, none, none, "htm"⟩
        ⟨"https://h", "/a/b.htm", "https://h/a/b.htm?q=1#f"⟩
        (fun _ => false) none 0 .failure (fun _ => [])).1 = "https://h/a/b.htm" := by
  have h := resolve_all_fail_fallback ⟨false, none, none, "htm"⟩
      ⟨"https://h", "/a/b.htm", "https://h/a/b.htm?q=1#f"⟩ (fun _ => false) (fun _ => []) 0
      (fun _ => rfl)
  rw [h]
  decide

/-- Claim C9: with no usable cached hit, `getCshId` returns an absent result
rather than propagating an error on every failure kind: fetch rejection or
timeout, a non-success HTTP status, a payload over the 2MB threshold, and a
malformed manifest (a document in which no records are found). -/
theorem getCshId_failure_absent (cache : Option AliasCache) (now : Nat)
    (parse : String → List MapRec) (aliasPath targetRelative : String)
    (hmiss : cacheProbe cache now targetRelative = none) :
    (getCshId cache now .failure parse aliasPath targetRelative).1 = none
    ∧ (∀ body,
        (getCshId cache now (.success false body) parse aliasPath targetRelative).1 = none)
    ∧ (∀ ok body, body.length > 2000000 →
        (getCshId cache now (.success ok body) parse aliasPath targetRelative).1 = none)
    ∧ (∀ body, parse body = [] →
        (getCshId cache now (.success true body) parse aliasPath targetRelative).1 = none) := by
  refine ⟨?_, ?_, ?_, ?_⟩
  · simp [getCshId, hmiss, getCshIdFetch]
  · intro body
    simp [getCshId, hmiss, getCshIdFetch]
  · intro ok body hbig
    cases ok with
    | false => simp [getCshId, hmiss, getCshIdFetch]
    | true => simp [getCshId, hmiss, getCshIdFetch, hbig]
  · intro body hparse
    by_cases hbig : body.length > 2000000
    · simp [getCshId, hmiss, getCshIdFetch, hbig]
    · simp [getCshId, hmiss, getCshIdFetch, hbig, hparse, buildAliasIndex, emptyIndex,
        lookupIndex]

/-- Witness for C9 on a cold cache. -/
theorem getCshId_failure_absent_witness :
    (getCshId none 0 .failure (fun _ => []) "/Data/Alias.xml" "content/x.htm").1 = none :=
  (getCshId_failure_absent none 0 (fun _ => []) "/Data/Alias.xml" "content/x.htm" rfl).1

/-- Claim C10: an event whose `isTrusted` flag is false, or an absent
event, makes the click handler return without resolving and makes
`copyToClipboard` return without any clipboard write or UI. -/
theorem untrusted_event_inert (ev : Option DomEvent) (h : isTrustedOf ev = false) :
    (∀ cfg loc probeOk cache now fetch parse,
      handleCopyUrlClick ev cfg loc probeOk cache now fetch parse = none)
    ∧ (∀ text secureCtx clipAvail writeOk execAvail execOk,
      copyToClipboard text ev secureCtx clipAvail writeOk execAvail execOk
        = CopyOutcome.blocked) := by
  constructor
  · intro cfg loc probeOk cache now fetch parse
    simp [handleCopyUrlClick, h]
  · intro text secureCtx clipAvail writeOk execAvail execOk
    simp [copyToClipboard, h]

/-- Witness for C10 at an absent event. -/
theorem untrusted_event_inert_witness :
    handleCopyUrlClick none ⟨false, none, none, "htm"⟩ ⟨"", "", ""⟩ (fun _ => false) none 0
        .failure (fun _ => []) = none
    ∧ copyToClipboard "u" none true true true true true = CopyOutcome.blocked :=
  ⟨(untrusted_event_inert none rfl).1 _ _ _ _ _ _ _,
   (untrusted_event_inert none rfl).2 _ _ _ _ _ _⟩

end CopyCsh
